import Mathlib

/-!
Verification of the weechat-logexport selection and rendering core.

Shallow embedding of `src/logexport.py`.  The backlog is modelled as a list of
`LogLine` given newest-to-oldest, exactly the order in which
`logexport_export_cmd` walks the buffer.  Python exceptions used for control
flow (`StopExport`) and for validation errors become an explicit `Decision`
type and an `Except` result, mirroring the two-channel design of the source:
a per-line callback plus a final sentinel call `mustExportLine(None,None,None)`.

Machine-level caveats of the embedding, stated once here:
* Python `str` is modelled by Lean `String` / `List Char`; `msg.find(sub) >= 0`
  becomes an executable substring test `pyContains`.
* `int(...)` is modelled by `pyIntParse` (optional sign, decimal ASCII digits,
  surrounding whitespace stripped), matching CPython on the inputs relevant
  here (underscore separators and non-ASCII digits are not modelled).
* `datetime` arithmetic is modelled in seconds since the epoch; the ambient
  clock of `timestampOfString` becomes two explicit parameters (`now`,
  `todayStart`), and calendar dates are derived at UTC (`dateOf`,
  `civilFromDays`).
* `weechat.string_remove_color` is an external call and is modelled as the
  identity; the external nick-colour lookup `weechat.info_get` is an explicit
  function parameter (its per-call caching in the source is semantically
  transparent for a pure lookup).
-/

namespace Logexport

/-- `LogLine = namedtuple('LogLine', ['timestamp', 'prefix', 'line'])`.
The `prefix` field is named `pfx` in Lean. -/
structure LogLine where
  timestamp : Nat
  pfx : String
  line : String
deriving DecidableEq, Repr

/-- `a` is a prefix of `b` (on character lists). -/
def chPrefixOf : List Char → List Char → Bool
  | [], _ => true
  | _ :: _, [] => false
  | a :: as, b :: bs => a == b && chPrefixOf as bs

/-- `needle` occurs as a contiguous substring of `hay`. -/
def chInfixOf (needle : List Char) : List Char → Bool
  | [] => needle.isEmpty
  | h :: t => chPrefixOf needle (h :: t) || chInfixOf needle t

/-- Python `msg.find(sub) >= 0`: `sub` occurs as a substring of `msg`. -/
def pyContains (msg sub : String) : Bool :=
  chInfixOf sub.data msg.data

/-! ## The exporter: `logexport_export_cmd`

`mustExportLine` either returns a boolean (include / exclude) or raises
`StopExport`; the three outcomes become the `Decision` type.  The predicates
of the source are mutable closures; they become explicit state passed through
`scanLoop`.
-/

/-- Outcome of one `mustExportLine(timestamp, prefix, msg)` call:
return `True`, return `False`, or raise `StopExport`. -/
inductive Decision where
  | incl
  | excl
  | stop
deriving DecidableEq, Repr

/-- The validation errors a predicate's sentinel call can raise
(`Could not find end ...` / `Could not find beginning ...`). -/
inductive ExportError where
  | endAnchorNotFound
  | startAnchorNotFound
deriving DecidableEq, Repr

/-- The scan loop of `logexport_export_cmd`: walk the backlog newest first,
appending included lines to `gathered`; a `stop` decision breaks out with
`reachedTop = False`.  Returns `(gathered, finalState, reachedTop)`. -/
def scanLoop (decide1 : σ → LogLine → Decision × σ) :
    σ → List LogLine → List LogLine × σ × Bool
  | st, [] => ([], st, true)
  | st, l :: ls =>
    match decide1 st l with
    | (.stop, st2) => ([], st2, false)
    | (.incl, st2) =>
      match scanLoop decide1 st2 ls with
      | (g, st3, top) => (l :: g, st3, top)
    | (.excl, st2) =>
      match scanLoop decide1 st2 ls with
      | (g, st3, top) => (g, st3, top)

/-- `logexport_export_cmd`: run the scan; if the top of the backlog was
reached, give the sentinel (`mustExportLine(None,None,None)`, modelled by
`finish`) the chance to fail; otherwise return the gathered slice reversed
to chronological order (`gathered[::-1]`). -/
def runExport (decide1 : σ → LogLine → Decision × σ) (finish : σ → Option ExportError)
    (st0 : σ) (backlog : List LogLine) : Except ExportError (List LogLine) :=
  match scanLoop decide1 st0 backlog with
  | (g, stf, top) =>
    if top then
      match finish stf with
      | some e => .error e
      | none => .ok g.reverse
    else .ok g.reverse

/-! ### `exportWithTimes` -/

/-- `shouldExport` of `exportWithTimes`: stop strictly below `start_time`,
include up to `end_time`, exclude newer lines.  Stateless. -/
def timeDecide (startT endT : Nat) (_ : Unit) (l : LogLine) : Decision × Unit :=
  (if l.timestamp < startT then .stop
   else if l.timestamp ≤ endT then .incl
   else .excl, ())

/-- The time-range sentinel: `return True  # Nothing can go wrong.` -/
def timeFinish (_ : Unit) : Option ExportError := none

/-- The `/logexport time` export on a parsed `(start_time, end_time)` pair. -/
def exportWithTimes (startT endT : Nat) (backlog : List LogLine) :
    Except ExportError (List LogLine) :=
  runExport (timeDecide startT endT) timeFinish () backlog

/-! ### `exportWithTextMatch` -/

/-- The mutable attributes `shouldExport.endFound` / `shouldExport.done`. -/
structure MatchState where
  endFound : Bool
  done : Bool
deriving DecidableEq, Repr

/-- `shouldExport` of `exportWithTextMatch` on a real line.  `delimFrom` is
the start text, `delimTo` the optional end text. -/
def matchDecide (delimFrom : String) (delimTo : Option String)
    (st : MatchState) (l : LogLine) : Decision × MatchState :=
  if st.done then (.stop, st)
  else if !st.endFound && (match delimTo with
      | some t => pyContains l.line t
      | none => false) then
    (.incl, { st with endFound := true })
  else if !st.endFound then (.excl, st)
  else if pyContains l.line delimFrom then (.incl, { st with done := true })
  else (.incl, st)

/-- The text-match sentinel branch of `shouldExport(None, None, None)`. -/
def matchFinish (st : MatchState) : Option ExportError :=
  if !st.endFound then some .endAnchorNotFound
  else if !st.done then some .startAnchorNotFound
  else none

/-- Initial state: `endFound = (delimTo is None)`, `done = False`. -/
def matchInit (delimTo : Option String) : MatchState :=
  ⟨delimTo.isNone, false⟩

/-- The `/logexport match` export on parsed delimiters. -/
def exportWithTextMatch (delimFrom : String) (delimTo : Option String)
    (backlog : List LogLine) : Except ExportError (List LogLine) :=
  runExport (matchDecide delimFrom delimTo) matchFinish (matchInit delimTo) backlog

/-! ### `exportWithWhole` -/

/-- The `/logexport whole` export: `shouldExport` always returns `True`
(also at the sentinel call, so `finish` never fails). -/
def exportWithWhole (backlog : List LogLine) : Except ExportError (List LogLine) :=
  runExport (fun (_ : Unit) _ => (.incl, ())) (fun _ => none) () backlog

/-! ## `timestampOfString` -/

/-- Whitespace characters stripped by Python `str.strip()` (ASCII subset). -/
def pySpace (c : Char) : Bool :=
  c = ' ' || c = '\t' || c = '\n' || c = '\r' || c = '\x0b' || c = '\x0c'

/-- Python `s.strip()` on a character list. -/
def chStrip (l : List Char) : List Char :=
  ((l.dropWhile pySpace).reverse.dropWhile pySpace).reverse

/-- Python `s.strip()`. -/
def pyStrip (s : String) : String :=
  ⟨chStrip s.data⟩

/-- Python `s.split(sep)` for a single-character separator, on character
lists.  Always returns at least one piece (`''.split(sep) == ['']`). -/
def chSplit (sep : Char) : List Char → List (List Char)
  | [] => [[]]
  | c :: cs =>
    match chSplit sep cs with
    | [] => [[]]
    | h :: t => if c = sep then [] :: h :: t else (c :: h) :: t

/-- Python `s.split(sep)` for a single-character separator. -/
def pySplit (sep : Char) (s : String) : List String :=
  (chSplit sep s.data).map fun l => ⟨l⟩

/-- Numeric value of a list of decimal digits. -/
def natOfDigits (l : List Char) : Nat :=
  l.foldl (fun a c => 10 * a + (c.toNat - '0'.toNat)) 0

/-- Python `int(s)`: strip surrounding whitespace, optional single sign,
then a nonempty run of decimal digits. -/
def pyIntParse (s : String) : Option Int :=
  match chStrip s.data with
  | [] => none
  | c :: rest =>
    if c = '+' ∨ c = '-' then
      if rest ≠ [] ∧ rest.all (·.isDigit) then
        some ((if c = '-' then (-1 : Int) else 1) * (natOfDigits rest : Int))
      else none
    else if (c :: rest).all (·.isDigit) then some ((natOfDigits (c :: rest) : Int))
    else none

/-- The component pipeline of `timestampOfString`, after
`spl = timestr.strip().split(':')`: reject more than three components,
turn a trailing empty component into `'0'`, pad with `'0'` to three
components, parse each with `int`, and check `0 ≤ h < 24`, `0 ≤ m,s < 60`. -/
def timestampParseComps (spl : List String) : Option (Nat × Nat × Nat) :=
  if spl.length > 3 then none
  else
    let spl2 := if spl.length > 1 ∧ spl.getLast? = some "" then spl.dropLast ++ ["0"] else spl
    let spl3 := spl2 ++ List.replicate (3 - spl2.length) "0"
    match spl3 with
    | [a, b, c] =>
      match pyIntParse a, pyIntParse b, pyIntParse c with
      | some h, some m, some s =>
        if 0 ≤ h ∧ h < 24 ∧ 0 ≤ m ∧ m < 60 ∧ 0 ≤ s ∧ s < 60 then
          some (h.toNat, m.toNat, s.toNat)
        else none
      | _, _, _ => none
    | _ => none

/-- The parsing half of `timestampOfString`
(`spl = timestr.strip().split(':')` and everything up to the bound checks). -/
def timestampParse (timestr : String) : Option (Nat × Nat × Nat) :=
  timestampParseComps (pySplit ':' (pyStrip timestr))

/-- `timestampOfString`, with the ambient clock explicit: `now` is the
current instant and `todayStart` today's midnight, both in epoch seconds
(as integers).  The parsed wall-clock time is resolved against today and
rolled back one day when it lies strictly in the future. -/
def timestampOfString (now todayStart : Int) (timestr : String) : Option Int :=
  (timestampParse timestr).map fun hms =>
    match hms with
    | (h, m, s) =>
      let req : Int := todayStart + 3600 * (h : Int) + 60 * (m : Int) + (s : Int)
      if now < req then req - 86400 else req

/-- Spec-side check of one time component: numeric and within `[0, B)`. -/
def compOk (B : Int) (c : String) : Bool :=
  match pyIntParse c with
  | some v => decide (0 ≤ v) && decide (v < B)
  | none => false

/-- Acceptance condition of the spec, stated from its words: at most three
colon-separated components; a single trailing separator with nothing after
it is dropped (treated as the component being omitted); every component that
is present must be numeric and within its positional bound (`h < 24`,
`m, s < 60`, all nonnegative); omitted components default to `0`, which is
always in bounds.  Compared against `timestampParseComps` for refinement. -/
def specAcceptsComps (comps : List String) : Bool :=
  let comps2 := if comps.length > 1 ∧ comps.getLast? = some "" then comps.dropLast else comps
  decide (comps.length ≤ 3) &&
    (comps2.zip [(24 : Int), 60, 60]).all fun cb => compOk cb.2 cb.1

/-- Spec-side acceptance on the raw input string. -/
def specAcceptsTime (timestr : String) : Bool :=
  specAcceptsComps (pySplit ':' (pyStrip timestr))

/-! ## `enhanceMessageLine`

`clickableUrls` is `re.sub` with
`URL_REGEX = r"(\bhttps?://[-a-zA-Z0-9@:%._+~#=?&/]{2,}\b)"`, modelled by a
left-to-right scan with greedy-then-backtracking length choice for the
character-class run (Python backtracks only on the trailing `\b`).
`applyColors` is decorated with `shieldTags`; `clickableUrls` is not.
The regex `\w` and the nick alternation are modelled over ASCII word
characters; alternation order is the nick-table order, as in the source's
`'|'.join(escapedNicks)` built from the dict's keys. -/

/-- Regex word character `\w` (ASCII subset). -/
def isWordChar (c : Char) : Bool :=
  c.isAlphanum || c = '_'

/-- Word-ness of the character at a position, `none` meaning outside the
string (which counts as a non-word position for `\b`). -/
def wordnessOpt : Option Char → Bool
  | some c => isWordChar c
  | none => false

/-- The character class `[-a-zA-Z0-9@:%._+~#=?&/]` of `URL_REGEX`. -/
def urlChar (c : Char) : Bool :=
  c.isAlphanum || c = '-' || c = '@' || c = ':' || c = '%' || c = '.' || c = '_' ||
    c = '+' || c = '~' || c = '#' || c = '=' || c = '?' || c = '&' || c = '/'

/-- Does the trailing `\b` of `URL_REGEX` hold after consuming `k`
characters of the class run `run` (`afterW` = word-ness right after the
whole run)? -/
def urlTailBoundary (run : List Char) (afterW : Bool) (k : Nat) : Bool :=
  match run[k - 1]? with
  | some c => isWordChar c != (match run[k]? with
      | some d => isWordChar d
      | none => afterW)
  | none => false

/-- Largest `k ≤ fuel` with `2 ≤ k` whose trailing boundary holds: the
greedy `{2,}` quantifier backtracking from the longest run. -/
def bestUrlLen (run : List Char) (afterW : Bool) : Nat → Option Nat
  | 0 => none
  | k + 1 =>
    if 2 ≤ k + 1 && urlTailBoundary run afterW (k + 1) then some (k + 1)
    else bestUrlLen run afterW k

/-- Attempt to match `URL_REGEX` at the current position (`prevW` = word-ness
of the preceding character).  Returns the matched URL and the rest. -/
def tryMatchUrl (prevW : Bool) (s : List Char) : Option (List Char × List Char) :=
  if prevW then none
  else
    match (if chPrefixOf "https://".data s then some 8
           else if chPrefixOf "http://".data s then some 7
           else none : Option Nat) with
    | none => none
    | some n =>
      let rest := s.drop n
      let run := rest.takeWhile urlChar
      match bestUrlLen run (wordnessOpt (rest.drop run.length).head?) run.length with
      | none => none
      | some k => some (s.take n ++ run.take k, rest.drop k)

/-- `re.sub` replacement `r'<a href="\1">\1</a>'`. -/
def urlReplacement (url : List Char) : List Char :=
  "<a href=\"".data ++ url ++ "\">".data ++ url ++ "</a>".data

/-- The `re.sub` scan: try a match at every position, left to right,
continuing after the end of each match.  `fuel` bounds the recursion and is
initialised to the string length (each step consumes at least one char). -/
def pyUrlSubGo : Nat → Bool → List Char → List Char
  | 0, _, s => s
  | _ + 1, _, [] => []
  | fuel + 1, prevW, c :: cs =>
    match tryMatchUrl prevW (c :: cs) with
    | some (url, rest) =>
      urlReplacement url ++ pyUrlSubGo fuel (wordnessOpt url.getLast?) rest
    | none => c :: pyUrlSubGo fuel (isWordChar c) cs

/-- `clickableUrls`: make URLs clickable links. -/
def clickableUrls (msg : String) : String :=
  ⟨pyUrlSubGo msg.data.length false msg.data⟩

/-- Loop body of `splitAtMatchingTag`: track the tag-nesting counter; when a
`>` takes the counter below zero, split there; if no close is found, return
`('', msg)` with `msg` the *original* argument. -/
def samtGo (orig : List Char) : Nat → List Char → List Char → String × String
  | _, _, [] => ("", ⟨orig⟩)
  | opening, acc, c :: cs =>
    if c = '<' then samtGo orig (opening + 1) (c :: acc) cs
    else if c = '>' then
      if opening = 0 then (⟨acc.reverse⟩, ⟨cs⟩)
      else samtGo orig (opening - 1) (c :: acc) cs
    else samtGo orig opening (c :: acc) cs

/-- `shieldTags.splitAtMatchingTag`. -/
def splitAtMatchingTag (msg : String) : String × String :=
  samtGo msg.data 0 [] msg.data

/-- The `shieldTags` decorator: split at `<`, reproduce each tag region
verbatim, and apply `func` only to the text outside tags. -/
def shieldTags (func : String → String) (msg : String) : String :=
  match (chSplit '<' msg.data).map (fun l => (⟨l⟩ : String)) with
  | [] => ""
  | first :: restParts =>
    func first ++ String.join (restParts.map fun part =>
      let p := splitAtMatchingTag part
      "<" ++ p.1 ++ ">" ++ func p.2)

/-- One alternation attempt of `\b(nick1|nick2|...)\b` at the current
position: the leading `\b` compares the previous character `left` with the
current one; branches are tried in nick-table order; each branch checks its
own trailing `\b`. -/
def matchNickAt (nicks : List String) (left : Option Char) (s : List Char) : Option String :=
  match s with
  | [] => none
  | c :: _ =>
    if wordnessOpt left = isWordChar c then none
    else
      nicks.find? fun n =>
        !n.data.isEmpty && chPrefixOf n.data s &&
          (wordnessOpt n.data.getLast? != wordnessOpt (s.drop n.data.length).head?)

/-- All matches of the nick regex (`finditer`): `(start position, nick)`
pairs, scanning left to right, non-overlapping. -/
def findNickMatches (nicks : List String) :
    Nat → Option Char → Nat → List Char → List (Nat × String)
  | 0, _, _, _ => []
  | _ + 1, _, _, [] => []
  | fuel + 1, left, pos, c :: cs =>
    match matchNickAt nicks left (c :: cs) with
    | some n =>
      (pos, n) :: findNickMatches nicks fuel n.data.getLast?
        (pos + n.data.length) ((c :: cs).drop n.data.length)
    | none => findNickMatches nicks fuel (some c) (pos + 1) cs

/-- Python slice `l[a:b]` (empty when `b ≤ a`). -/
def chSlice (l : List Char) (a b : Nat) : List Char :=
  (l.drop a).take (b - a)

/-- The `nickColors[nick]` dictionary lookup (`nicks` is the
nick -> colour table; matches produced by the scan are always present). -/
def lookupColor (nicks : List (String × String)) (n : String) : String :=
  match nicks.find? (fun p => p.1 == n) with
  | some p => p.2
  | none => ""

/-- `'<span class="color-{}">{}</span>'.format(nickColors[nick], nick)`. -/
def nickSpan (nicks : List (String × String)) (n : String) : List Char :=
  "<span class=\"color-".data ++ (lookupColor nicks n).data ++ "\">".data ++
    n.data ++ "</span>".data

/-- The body of `applyColors` (before the `shieldTags` decoration): walk the
matches, copying `msg[lastStop:match.start()]`, emitting the span, and
setting `lastStop = match.end() + 1` — the `+ 1` is the source's own. -/
def applyColorsCore (nicks : List (String × String)) (msg : String) : String :=
  let ms := findNickMatches (nicks.map (fun p => p.1)) msg.data.length none 0 msg.data
  let step := ms.foldl
    (fun (acc : List Char × Nat) m =>
      (acc.1 ++ chSlice msg.data acc.2 m.1 ++ nickSpan nicks m.2,
        m.1 + m.2.data.length + 1))
    ([], 0)
  ⟨step.1 ++ msg.data.drop step.2⟩

/-- `applyColors = shieldTags(applyColorsCore)`. -/
def applyColors (nicks : List (String × String)) (msg : String) : String :=
  shieldTags (applyColorsCore nicks) msg

/-- `enhanceMessageLine`: linkify first (unshielded), then colourize nicks
(shielded). -/
def enhanceMessageLine (msg : String) (nicks : List (String × String)) : String :=
  applyColors nicks (clickableUrls msg)

/-! ## `renderHtml` -/

/-- One escaped character: `&` -> `&amp;`, `<` -> `&lt;`, `>` -> `&gt;`.
The source performs three sequential `str.replace` calls in this order;
since no replacement output contains a pattern replaced later, the
composition equals this single-pass per-character expansion
(`weechat.string_remove_color` is modelled as the identity). -/
def escChar (c : Char) : List Char :=
  if c = '&' then "&amp;".data
  else if c = '<' then "&lt;".data
  else if c = '>' then "&gt;".data
  else [c]

/-- `escape` on character lists. -/
def escList (l : List Char) : List Char :=
  l.foldr (fun c acc => escChar c ++ acc) []

/-- `renderHtml.escape`. -/
def escape (s : String) : String :=
  ⟨escList s.data⟩

/-- The raw non-human sentinel markers of the source, before escaping. -/
def nonhumanRaw : List String := ["--", "-->", "<--", "=!=", ""]

/-- `NONHUMAN_PREFIXES = [escape(x) for x in ['--', '-->', '<--', '=!=', '']]`. -/
def nonhumanSentinels : List String := nonhumanRaw.map escape

/-- `nickColor`: escaped sentinels are pre-seeded to `'default'` in the
colour cache; anything else goes to the external lookup (caching of a pure
lookup is transparent). -/
def nickColor (ext : String → String) (nick : String) : String :=
  if nick ∈ nonhumanSentinels then "default" else ext nick

/-- `nickPrefixColor`: role marker to CSS class, defaulting to `'none'`. -/
def pfxColorClass (np : String) : String :=
  if np = "!" then "owner"
  else if np = "@" then "op"
  else if np = "%" then "halfop"
  else if np = "~" then "owner"
  else if np = "+" then "voice"
  else "none"

/-- `formatRow.splitPrefix`: split a leading role marker off a human
author's (escaped) prefix. -/
def splitPfx (p : String) : String × String :=
  if p ∈ nonhumanSentinels then ("", p)
  else
    match p.data with
    | c :: cs =>
      if c = '!' ∨ c = '@' ∨ c = '~' ∨ c = '%' ∨ c = '+' then (⟨[c]⟩, ⟨cs⟩)
      else ("", p)
    | [] => ("", p)

/-- `renderHtml.isLineContinuation` (both arguments are escaped strings,
as at the call site in `formatRow`). -/
def isLineContinuation (p lastP : String) : Bool :=
  if p ∉ nonhumanSentinels ∧ p = lastP then true else false

/-- `renderHtml.formatRow`: one table row.  All four string arguments are
already escaped (as at the call site). -/
def formatRow (ext : String → String) (nicks : List (String × String))
    (time pfxE lineE lastPfxE : String) : String :=
  let pv := splitPfx pfxE
  let cont := isLineContinuation pfxE lastPfxE
  "    <tr" ++ (if pfxE ∈ nonhumanSentinels then " class=\"non-human\"" else "") ++ ">" ++
    "<td>" ++ time ++ "</td>" ++
    "<td class=\"color-" ++ nickColor ext pv.2 ++ "\">" ++
    "<span class=\"nc-prefix-" ++ pfxColorClass pv.1 ++ "\">" ++
    (if cont then "" else pv.1) ++ "</span>" ++
    (if cont then "↳" else pv.2) ++ "</td>" ++
    "<td>" ++ enhanceMessageLine lineE nicks ++ "</td>" ++
    "</tr>\n"

/-- Calendar day of an epoch timestamp (UTC). -/
def dateOf (ts : Nat) : Nat :=
  ts / 86400

/-- Gregorian `(year, month, day)` of an epoch day (standard civil-from-days
computation, modelling Python `date.isoformat()`'s calendar). -/
def civilFromDays (day : Nat) : Nat × Nat × Nat :=
  let z := day + 719468
  let era := z / 146097
  let doe := z % 146097
  let yoe := (doe - doe / 1460 + doe / 36524 - doe / 146097) / 365
  let y := yoe + era * 400
  let doy := doe - (365 * yoe + yoe / 4 - yoe / 100)
  let mp := (5 * doy + 2) / 153
  let d := doy - (153 * mp + 2) / 5 + 1
  let m := if mp < 10 then mp + 3 else mp - 9
  (if m ≤ 2 then y + 1 else y, m, d)

/-- Two-digit zero-padded decimal. -/
def two (n : Nat) : String :=
  (if n < 10 then "0" else "") ++ toString n

/-- `cDate.date().isoformat()`. -/
def isoDate (day : Nat) : String :=
  match civilFromDays day with
  | (y, m, d) => toString y ++ "-" ++ two m ++ "-" ++ two d

/-- `cDate.time().isoformat()` (`HH:MM:SS`). -/
def timeIso (ts : Nat) : String :=
  two (ts % 86400 / 3600) ++ ":" ++ two (ts % 3600 / 60) ++ ":" ++ two (ts % 60)

/-- The `formatRow(escape(...), ...)` call made for line `l` with raw
previous prefix `lastP`. -/
def rowOf (ext : String → String) (nicks : List (String × String))
    (l : LogLine) (lastP : String) : String :=
  formatRow ext nicks (escape (timeIso l.timestamp)) (escape l.pfx)
    (escape l.line) (escape lastP)

/-- The day-section opening emitted for line `l`:
`"    <h3>{date}</h3>\n    <table>\n"`. -/
def dayHeading (l : LogLine) : String :=
  "    <h3>" ++ isoDate (dateOf l.timestamp) ++ "</h3>\n    <table>\n"

/-- The main loop of `renderHtml`, carrying `formatted`, `prevDate`
(as the previous line's timestamp, initially `fromtimestamp(0)`) and
`lastPrefix`. -/
def renderLoop (ext : String → String) (nicks : List (String × String)) :
    String → Nat → String → List LogLine → String
  | formatted, _, _, [] => formatted ++ "    </table>\n"
  | formatted, prevTs, lastP, l :: ls =>
    let f2 := if dateOf l.timestamp ≠ dateOf prevTs then
        formatted ++ (if formatted ≠ "" then "</table>\n" else "") ++ dayHeading l
      else formatted
    renderLoop ext nicks (f2 ++ rowOf ext nicks l lastP) l.timestamp l.pfx ls

/-- `renderHtml` body (without the `wrapInHtml` shell): `formatted` starts
empty, `prevDate` at the epoch, `lastPrefix` empty. -/
def renderHtmlBody (ext : String → String) (nicks : List (String × String))
    (lines : List LogLine) : String :=
  renderLoop ext nicks "" 0 "" lines

/-- History-indexed reformulation of the render loop, from the spec's words:
for each line, knowing only the *previous line* (`none` for the first),
emit `</table>` exactly when a previous line exists and the date changed,
emit a day heading exactly when the date changed (the previous date of the
first line being the epoch date, day 0), and build the row with the
previous line's raw prefix (empty for the first).  Compared against
`renderHtmlBody` for refinement. -/
def specChunks (ext : String → String) (nicks : List (String × String)) :
    Option LogLine → List LogLine → List String
  | _, [] => []
  | prev, l :: ls =>
    ((if dateOf l.timestamp ≠ dateOf (match prev with
          | none => 0
          | some p => p.timestamp) then
        (if prev.isSome then "</table>\n" else "") ++ dayHeading l
      else "") ++
      rowOf ext nicks l (match prev with
        | none => ""
        | some p => p.pfx)) ::
      specChunks ext nicks (some l) ls

/-- Well-formed tagged text: an outside-tag segment followed by
`<tag>outside` groups.  Used to state what tag-shielding preserves. -/
def assemble (o0 : String) (pieces : List (String × String)) : String :=
  o0 ++ String.join (pieces.map fun q => "<" ++ q.1 ++ ">" ++ q.2)

/-! ## Lemmas about the exporter -/

theorem exportWithTimes_eq_scan (startT endT : Nat) (bl : List LogLine) :
    exportWithTimes startT endT bl =
      .ok ((scanLoop (timeDecide startT endT) () bl).1).reverse := by
  unfold exportWithTimes runExport
  rcases scanLoop (timeDecide startT endT) () bl with ⟨g, stf, top⟩
  cases top <;> simp [timeFinish]

theorem timeScan_eq_filter (startT endT : Nat) :
    ∀ bl : List LogLine,
      bl.Pairwise (fun a b => b.timestamp ≤ a.timestamp) →
      (scanLoop (timeDecide startT endT) () bl).1 =
        bl.filter fun l => decide (startT ≤ l.timestamp) && decide (l.timestamp ≤ endT)
  | [], _ => rfl
  | l :: ls, hp => by
    rw [List.pairwise_cons] at hp
    obtain ⟨hall, htail⟩ := hp
    by_cases hlt : l.timestamp < startT
    · have hfilter : ∀ x ∈ ls,
          (decide (startT ≤ x.timestamp) && decide (x.timestamp ≤ endT)) = false := by
        intro x hx
        have := hall x hx
        simp only [Bool.and_eq_false_iff, decide_eq_false_iff_not]
        left; omega
      have hl : (decide (startT ≤ l.timestamp) && decide (l.timestamp ≤ endT)) = false := by
        simp only [Bool.and_eq_false_iff, decide_eq_false_iff_not]
        left; omega
      have hnil : List.filter
          (fun x => decide (startT ≤ x.timestamp) && decide (x.timestamp ≤ endT)) ls = [] :=
        List.filter_eq_nil_iff.2 fun x hx => by simp [hfilter x hx]
      simp only [scanLoop, timeDecide, if_pos hlt, List.filter_cons, hl, hnil]
      rfl
    · have hge : startT ≤ l.timestamp := by omega
      by_cases hle : l.timestamp ≤ endT
      · simp only [scanLoop, timeDecide, if_neg hlt, if_pos hle, List.filter_cons]
        rw [timeScan_eq_filter startT endT ls htail]
        simp [hge, hle]
      · simp only [scanLoop, timeDecide, if_neg hlt, if_neg hle, List.filter_cons]
        rw [timeScan_eq_filter startT endT ls htail]
        simp [hge, hle]

/-- Searching phase of the text-match scan: while `endFound` is false,
lines not containing the end anchor are excluded and the state is kept. -/
theorem matchScan_searching (f t : String) :
    ∀ (pre ls : List LogLine), (∀ l ∈ pre, pyContains l.line t = false) →
      scanLoop (matchDecide f (some t)) ⟨false, false⟩ (pre ++ ls) =
        scanLoop (matchDecide f (some t)) ⟨false, false⟩ ls
  | [], _, _ => rfl
  | l :: pre, ls, h => by
    have hl : pyContains l.line t = false := h l (by simp)
    have ih := matchScan_searching f t pre ls fun x hx => h x (by simp [hx])
    simp only [List.cons_append, scanLoop, matchDecide, hl]
    simp [ih]

/-- Collecting phase of the text-match scan: once `endFound` is set, every
line is included, and lines not containing the start anchor keep the state. -/
theorem matchScan_collecting (f : String) (ot : Option String) :
    ∀ (mid ls : List LogLine), (∀ l ∈ mid, pyContains l.line f = false) →
      scanLoop (matchDecide f ot) ⟨true, false⟩ (mid ++ ls) =
        (mid ++ (scanLoop (matchDecide f ot) ⟨true, false⟩ ls).1,
          (scanLoop (matchDecide f ot) ⟨true, false⟩ ls).2)
  | [], _, _ => by simp
  | l :: mid, ls, h => by
    have hl : pyContains l.line f = false := h l (by simp)
    have ih := matchScan_collecting f ot mid ls fun x hx => h x (by simp [hx])
    simp only [List.cons_append, scanLoop, matchDecide, hl]
    simp [ih]

/-- Once `done` is set, the scan stops at once (or the backlog is already
exhausted); either way the export succeeds with the gathered lines. -/
theorem exportMatch_characterization (f t : String) (pre mid rest : List LogLine)
    (e s : LogLine)
    (hpre : ∀ l ∈ pre, pyContains l.line t = false)
    (he : pyContains e.line t = true)
    (hmid : ∀ l ∈ mid, pyContains l.line f = false)
    (hs : pyContains s.line f = true) :
    exportWithTextMatch f (some t) (pre ++ (e :: (mid ++ (s :: rest)))) =
      .ok ((e :: (mid ++ [s])).reverse) := by
  unfold exportWithTextMatch runExport matchInit
  simp only [Option.isNone_some]
  simp only [matchScan_searching f t pre (e :: (mid ++ (s :: rest))) hpre]
  simp only [scanLoop, matchDecide, he]
  norm_num
  simp only [matchScan_collecting f (some t) mid (s :: rest) hmid]
  simp only [scanLoop, matchDecide, hs]
  norm_num
  cases rest with
  | nil => simp [scanLoop, matchFinish]
  | cons r rs => simp [scanLoop, matchDecide, matchFinish]

/-! ## Claim theorems: the exporter -/

/-- C1 (confirmed): for a backlog presented newest-to-oldest with
non-increasing timestamps and any range with `start ≤ end`, the time-range
export succeeds and returns exactly the reversed filter of the backlog to
`start ≤ timestamp ≤ end` — so every returned line is in range, the slice is
the maximal such set, and after the final reversal it is sorted in
non-decreasing timestamp order. -/
theorem c1_time_range_export (startT endT : Nat) (bl : List LogLine)
    (hmono : bl.Pairwise fun a b => b.timestamp ≤ a.timestamp)
    (hrange : startT ≤ endT) :
    ∃ slice, exportWithTimes startT endT bl = .ok slice ∧
      slice = (bl.filter fun l =>
        decide (startT ≤ l.timestamp) && decide (l.timestamp ≤ endT)).reverse ∧
      (∀ l ∈ slice, startT ≤ l.timestamp ∧ l.timestamp ≤ endT) ∧
      slice.Pairwise fun a b => a.timestamp ≤ b.timestamp := by
  have hfe := timeScan_eq_filter startT endT bl hmono
  refine ⟨((scanLoop (timeDecide startT endT) () bl).1).reverse,
    exportWithTimes_eq_scan startT endT bl, by rw [hfe], ?_, ?_⟩
  · intro l hl
    rw [hfe, List.mem_reverse, List.mem_filter] at hl
    have hb := hl.2
    simp only [Bool.and_eq_true, decide_eq_true_eq] at hb
    exact hb
  · rw [hfe, List.pairwise_reverse]
    exact hmono.filter _

/-- Witness for C1 at a concrete backlog `[30, 20, 10]` and range `[15, 25]`. -/
theorem c1_time_range_export_witness :
    ∃ slice, exportWithTimes 15 25
        [⟨30, "a", "x"⟩, ⟨20, "b", "y"⟩, ⟨10, "c", "z"⟩] = .ok slice ∧
      slice = ([⟨30, "a", "x"⟩, ⟨20, "b", "y"⟩, ⟨10, "c", "z"⟩].filter fun l =>
        decide (15 ≤ l.timestamp) && decide (l.timestamp ≤ 25)).reverse ∧
      (∀ l ∈ slice, 15 ≤ l.timestamp ∧ l.timestamp ≤ 25) ∧
      slice.Pairwise fun a b => a.timestamp ≤ b.timestamp :=
  c1_time_range_export 15 25 _ (by decide) (by decide)

/-- C2 counterexample: both anchors are present in the backlog (start text
`"A"` in the newest line, end text `"B"` in the older one), yet the export
does not return the contiguous run containing both boundary lines — it fails
with the start-anchor error, because the scan only looks for the start
anchor strictly below the end-anchor line. -/
theorem c2_text_match_cex :
    exportWithTextMatch "A" (some "B") [⟨2, "n", "has A"⟩, ⟨1, "n", "has B"⟩] =
      .error .startAnchorNotFound := rfl

/-- C2 (corrected): when the end anchor is present (line `e`, with no newer
line containing the end text) and the start text appears in some line
strictly older than `e` (line `s`, with no line between them containing the
start text), the export returns exactly the contiguous run from `s` up
through `e`, both inclusive; lines newer than the end-anchor line are never
included, whatever their content. -/
theorem c2_text_match_amended (f t : String) (pre mid rest : List LogLine)
    (e s : LogLine)
    (hpre : ∀ l ∈ pre, pyContains l.line t = false)
    (he : pyContains e.line t = true)
    (hmid : ∀ l ∈ mid, pyContains l.line f = false)
    (hs : pyContains s.line f = true) :
    exportWithTextMatch f (some t) (pre ++ (e :: (mid ++ (s :: rest)))) =
      .ok ((e :: (mid ++ [s])).reverse) :=
  exportMatch_characterization f t pre mid rest e s hpre he hmid hs

/-- Witness for C2 (amended) on a five-line backlog: a newer line containing
the start text is skipped; the run from the start-anchor line to the
end-anchor line is returned chronologically. -/
theorem c2_text_match_amended_witness :
    exportWithTextMatch "A" (some "B")
        ([⟨5, "n", "newer has A"⟩] ++ (⟨4, "n", "the B line"⟩ ::
          ([⟨3, "n", "zzz"⟩] ++ (⟨2, "n", "start A here"⟩ :: [⟨1, "n", "old"⟩])))) =
      .ok ((⟨4, "n", "the B line"⟩ ::
        ([⟨3, "n", "zzz"⟩] ++ [⟨2, "n", "start A here"⟩])).reverse) :=
  c2_text_match_amended "A" "B" [⟨5, "n", "newer has A"⟩] [⟨3, "n", "zzz"⟩]
    [⟨1, "n", "old"⟩] ⟨4, "n", "the B line"⟩ ⟨2, "n", "start A here"⟩
    (by decide) (by decide) (by decide) (by decide)

/-- C3 (confirmed): anchor-absence failures come only from the end-of-backlog
sentinel, never from the per-line scan.  (1) If an end anchor was given and
no line contains it, the export fails with the end-anchor error after the
whole backlog was scanned.  (2) With no end anchor, if no line contains the
start text, the export fails with the start-anchor error.  (3) With the end
anchor found but the start text absent below it, the export fails with the
start-anchor error.  (4) Structurally, any error of the text-match export
arises with the scan having reached the top of the backlog and equals the
sentinel's verdict on the final state — per-line decisions never produce an
error. -/
theorem c3_sentinel_errors (f t : String) (bl : List LogLine) :
    ((∀ l ∈ bl, pyContains l.line t = false) →
      exportWithTextMatch f (some t) bl = .error .endAnchorNotFound) ∧
    ((∀ l ∈ bl, pyContains l.line f = false) →
      exportWithTextMatch f none bl = .error .startAnchorNotFound) ∧
    (∀ (pre post : List LogLine) (e : LogLine), bl = pre ++ (e :: post) →
      (∀ l ∈ pre, pyContains l.line t = false) → pyContains e.line t = true →
      (∀ l ∈ post, pyContains l.line f = false) →
      exportWithTextMatch f (some t) bl = .error .startAnchorNotFound) ∧
    (∀ (ot : Option String) (err : ExportError),
      exportWithTextMatch f ot bl = .error err →
      (scanLoop (matchDecide f ot) (matchInit ot) bl).2.2 = true ∧
      matchFinish (scanLoop (matchDecide f ot) (matchInit ot) bl).2.1 = some err) := by
  refine ⟨?_, ?_, ?_, ?_⟩
  · intro h
    unfold exportWithTextMatch runExport matchInit
    simp only [Option.isNone_some]
    rw [← List.append_nil bl]
    simp only [matchScan_searching f t bl [] h]
    simp [scanLoop, matchFinish]
  · intro h
    unfold exportWithTextMatch runExport matchInit
    simp only [Option.isNone_none]
    rw [← List.append_nil bl]
    simp only [matchScan_collecting f none bl [] h]
    simp [scanLoop, matchFinish]
  · intro pre post e hbl hpre he hpost
    subst hbl
    unfold exportWithTextMatch runExport matchInit
    simp only [Option.isNone_some]
    simp only [matchScan_searching f t pre (e :: post) hpre]
    simp only [scanLoop, matchDecide, he]
    norm_num
    rw [← List.append_nil post]
    simp only [matchScan_collecting f (some t) post [] hpost]
    simp [scanLoop, matchFinish]
  · intro ot err h
    unfold exportWithTextMatch runExport at h
    rcases hscan : scanLoop (matchDecide f ot) (matchInit ot) bl with ⟨g, stf, top⟩
    cases top with
    | false =>
      rw [hscan] at h
      simp at h
    | true =>
      rw [hscan] at h
      cases hfin : matchFinish stf with
      | none => simp [hfin] at h
      | some x =>
        simp only [hfin] at h
        simp at h
        exact ⟨rfl, by rw [h]⟩

/-- Witness for C3 on a one-line backlog containing neither anchor. -/
theorem c3_sentinel_errors_witness :
    exportWithTextMatch "X" (some "Y") [⟨1, "a", "no anchors"⟩] =
      .error .endAnchorNotFound :=
  (c3_sentinel_errors "X" "Y" [⟨1, "a", "no anchors"⟩]).1 (by decide)

/-- C4 counterexample: with an empty line source and the `whole` selection,
the export does not fail at all — there is no empty-backlog check in the
code; the empty slice is returned (and then rendered and written), refuting
`fails with EmptyBacklog ... and nothing is rendered or written`. -/
theorem c4_empty_backlog_cex : exportWithWhole [] = .ok [] := rfl

/-- C4 (corrected): the code performs no empty-backlog detection.  On an
empty source the scan trivially reaches the top and only the sentinel
decides the outcome: `whole` and time-range exports succeed with the empty
slice (which is then rendered and written), while text-match exports fail —
with the end-anchor error when an end text was given, else with the
start-anchor error — not with any empty-backlog error. -/
theorem c4_empty_backlog_amended :
    exportWithWhole ([] : List LogLine) = .ok [] ∧
    (∀ startT endT : Nat, exportWithTimes startT endT [] = .ok []) ∧
    (∀ f t : String, exportWithTextMatch f (some t) [] = .error .endAnchorNotFound) ∧
    (∀ f : String, exportWithTextMatch f none [] = .error .startAnchorNotFound) :=
  ⟨rfl, fun _ _ => rfl, fun _ _ => rfl, fun _ => rfl⟩

/-! ## Lemmas about `timestampOfString` -/

theorem pyIntParse_zero : pyIntParse "0" = some 0 := by decide

theorem compOk_zero (B : Int) (h : 0 < B) : compOk B "0" = true := by
  simp only [compOk, pyIntParse_zero]
  simp [h]

/-- The final three-way parse-and-bound-check of `timestampParseComps`
succeeds exactly when each of the three components passes `compOk`. -/
theorem parse3_isSome (a b c : String) :
    (match pyIntParse a, pyIntParse b, pyIntParse c with
      | some h, some m, some s =>
        if 0 ≤ h ∧ h < 24 ∧ 0 ≤ m ∧ m < 60 ∧ 0 ≤ s ∧ s < 60 then
          some (h.toNat, m.toNat, s.toNat)
        else none
      | _, _, _ => (none : Option (Nat × Nat × Nat))).isSome =
      (compOk 24 a && compOk 60 b && compOk 60 c) := by
  cases hpa : pyIntParse a with
  | none => simp [compOk, hpa]
  | some v1 =>
    cases hpb : pyIntParse b with
    | none => simp [compOk, hpa, hpb]
    | some v2 =>
      cases hpc : pyIntParse c with
      | none => simp [compOk, hpa, hpb, hpc]
      | some v3 =>
        simp only [compOk, hpa, hpb, hpc]
        by_cases hP : 0 ≤ v1 ∧ v1 < 24 ∧ 0 ≤ v2 ∧ v2 < 60 ∧ 0 ≤ v3 ∧ v3 < 60
        · rw [if_pos hP]
          simp only [Option.isSome_some]
          obtain ⟨h1, h2, h3, h4, h5, h6⟩ := hP
          simp [h1, h2, h3, h4, h5, h6]
        · rw [if_neg hP]
          simp only [Option.isSome_none]
          symm
          rw [Bool.eq_false_iff]
          intro hcontra
          simp only [Bool.and_eq_true, decide_eq_true_eq] at hcontra
          exact hP (by tauto)

/-- Refinement of the parsing pipeline against the spec's acceptance
condition: component-list in, same verdict out. -/
theorem timeComps_iff : ∀ spl : List String,
    (timestampParseComps spl).isSome = specAcceptsComps spl
  | [] => by decide
  | [a] => by
    simp only [timestampParseComps, specAcceptsComps]
    norm_num [List.replicate]
    rw [parse3_isSome]
    simp [compOk_zero]
  | [a, b] => by
    by_cases hb : b = ""
    · subst hb
      simp only [timestampParseComps, specAcceptsComps]
      norm_num [List.getLast?, List.replicate, List.dropLast]
      rw [parse3_isSome]
      simp [compOk_zero]
    · simp only [timestampParseComps, specAcceptsComps]
      norm_num [List.getLast?, List.replicate, hb]
      rw [parse3_isSome]
      simp [compOk_zero]
  | [a, b, c] => by
    by_cases hc : c = ""
    · subst hc
      simp only [timestampParseComps, specAcceptsComps]
      norm_num [List.getLast?, List.replicate, List.dropLast]
      rw [parse3_isSome]
      simp [compOk_zero]
    · simp only [timestampParseComps, specAcceptsComps]
      norm_num [List.getLast?, List.replicate, hc]
      rw [parse3_isSome]
      rw [Bool.and_assoc]
  | a :: b :: c :: d :: t => by
    have hlen : (a :: b :: c :: d :: t).length > 3 := by
      simp only [List.length_cons]
      omega
    have hlen2 : ¬((a :: b :: c :: d :: t).length ≤ 3) := by omega
    simp only [timestampParseComps, specAcceptsComps, if_pos hlen]
    simp [hlen2]

/-- C5 (confirmed): a time literal parses successfully exactly when it has at
most three colon-separated components, each present component numeric and in
bounds (`0 ≤ h < 24`, `0 ≤ m, s < 60`), missing trailing components — and a
trailing separator with nothing after it — defaulting to `0`
(`specAcceptsTime` states this acceptance condition in the spec's words);
and the accepted wall-clock time, resolved against today's date, is rolled
back by exactly one day if and only if the resolved instant is strictly in
the future relative to now. -/
theorem c5_timestamp_of_string (timestr : String) (now todayStart : Int) :
    (timestampParse timestr).isSome = specAcceptsTime timestr ∧
    ∀ h m s : Nat, timestampParse timestr = some (h, m, s) →
      (timestampOfString now todayStart timestr =
          some (todayStart + 3600 * (h : Int) + 60 * (m : Int) + (s : Int) - 86400) ↔
        now < todayStart + 3600 * (h : Int) + 60 * (m : Int) + (s : Int)) ∧
      (¬ now < todayStart + 3600 * (h : Int) + 60 * (m : Int) + (s : Int) →
        timestampOfString now todayStart timestr =
          some (todayStart + 3600 * (h : Int) + 60 * (m : Int) + (s : Int))) := by
  refine ⟨timeComps_iff _, ?_⟩
  intro h m s hp
  unfold timestampOfString
  rw [hp]
  by_cases hlt : now < todayStart + 3600 * (h : Int) + 60 * (m : Int) + (s : Int)
  · refine ⟨⟨fun _ => hlt, fun _ => ?_⟩, fun hcon => absurd hlt hcon⟩
    simp only [Option.map_some']
    rw [if_pos hlt]
  · refine ⟨⟨fun heq => ?_, fun hl => absurd hl hlt⟩, fun _ => ?_⟩
    · simp only [Option.map_some', if_neg hlt, Option.some.injEq] at heq
      omega
    · simp only [Option.map_some']
      rw [if_neg hlt]

/-- Witness for C5 at `"18:42"` with `now = 100`, `todayStart = 0`: parsing
accepts, the resolved instant `67320` is in the future, and the result is
rolled back one day to `-19080`. -/
theorem c5_timestamp_of_string_witness :
    (timestampParse "18:42").isSome = specAcceptsTime "18:42" ∧
    timestampOfString 100 0 "18:42" = some (-19080) := by
  refine ⟨(c5_timestamp_of_string "18:42" 100 0).1, ?_⟩
  have h := ((c5_timestamp_of_string "18:42" 100 0).2 18 42 0 (by decide)).1
  have hfut : (100 : Int) < 0 + 3600 * ((18 : Nat) : Int) +
      60 * ((42 : Nat) : Int) + ((0 : Nat) : Int) := by norm_num
  have h2 := h.mpr hfut
  norm_num at h2
  exact h2

/-! ## Lemmas about `shieldTags` -/

theorem strExt {a b : String} (h : a.data = b.data) : a = b :=
  congrArg String.mk h

theorem foldl_append_data : ∀ (l : List String) (s : String),
    (l.foldl (· ++ ·) s).data = s.data ++ (l.map String.data).flatten
  | [], s => by simp
  | a :: l, s => by
    simp only [List.foldl_cons, foldl_append_data l (s ++ a), String.data_append,
      List.map_cons, List.flatten_cons, List.append_assoc]

theorem join_data (l : List String) :
    (String.join l).data = (l.map String.data).flatten := by
  have h := foldl_append_data l ""
  simpa [String.join] using h

theorem chSplit_ne_nil (sep : Char) : ∀ l : List Char, chSplit sep l ≠ []
  | [] => by simp [chSplit]
  | c :: cs => by
    simp only [chSplit]
    cases chSplit sep cs with
    | nil => simp
    | cons h t =>
      by_cases hc : c = sep <;> simp [hc]

theorem chSplit_append_no_sep (sep : Char) :
    ∀ (a b : List Char), sep ∉ a →
      ∀ h t, chSplit sep b = h :: t → chSplit sep (a ++ b) = (a ++ h) :: t
  | [], b, _, h, t, hb => by simpa using hb
  | c :: a, b, ha, h, t, hb => by
    have hc : c ≠ sep := fun e => ha (e ▸ List.mem_cons_self c a)
    have ih := chSplit_append_no_sep sep a b
      (fun hm => ha (List.mem_cons_of_mem c hm)) h t hb
    simp only [List.cons_append, chSplit, ih]
    simp [hc, ih]

theorem chSplit_sep_cons (sep : Char) (b : List Char) :
    chSplit sep (sep :: b) = [] :: chSplit sep b := by
  cases hcb : chSplit sep b with
  | nil => exact absurd hcb (chSplit_ne_nil sep b)
  | cons h t => simp [chSplit, hcb]

theorem chSplit_no_sep (sep : Char) (a : List Char) (ha : sep ∉ a) :
    chSplit sep a = [a] := by
  have h := chSplit_append_no_sep sep a [] ha [] [] (by simp [chSplit])
  simpa using h

theorem chSplit_assemble :
    ∀ (pieces : List (String × String)) (o0 : List Char), '<' ∉ o0 →
      (∀ q ∈ pieces, '<' ∉ (q.1 : String).data ∧ '>' ∉ q.1.data ∧ '<' ∉ q.2.data) →
      chSplit '<' (o0 ++ (pieces.map fun q =>
          '<' :: (q.1.data ++ '>' :: q.2.data)).flatten) =
        o0 :: pieces.map fun q => q.1.data ++ '>' :: q.2.data
  | [], o0, h0, _ => by
    simp only [List.map_nil, List.flatten_nil, List.append_nil, List.map_nil]
    exact chSplit_no_sep '<' o0 h0
  | q :: ps, o0, h0, hp => by
    obtain ⟨hq1, hq2, hq3⟩ := hp q (by simp)
    have ih := chSplit_assemble ps q.2.data hq3 fun r hr => hp r (by simp [hr])
    have step1 : chSplit '<' ('>' :: (q.2.data ++ (ps.map fun r =>
        '<' :: (r.1.data ++ '>' :: r.2.data)).flatten)) =
        ('>' :: q.2.data) :: ps.map fun r => r.1.data ++ '>' :: r.2.data := by
      have := chSplit_append_no_sep '<' ['>']
        (q.2.data ++ (ps.map fun r => '<' :: (r.1.data ++ '>' :: r.2.data)).flatten)
        (by simp) _ _ ih
      simpa using this
    have step2 : chSplit '<' (q.1.data ++ '>' :: (q.2.data ++ (ps.map fun r =>
        '<' :: (r.1.data ++ '>' :: r.2.data)).flatten)) =
        (q.1.data ++ '>' :: q.2.data) :: ps.map fun r => r.1.data ++ '>' :: r.2.data := by
      have := chSplit_append_no_sep '<' q.1.data _ hq1 _ _ step1
      simpa using this
    have step3 : chSplit '<' ('<' :: (q.1.data ++ '>' :: (q.2.data ++ (ps.map fun r =>
        '<' :: (r.1.data ++ '>' :: r.2.data)).flatten))) =
        [] :: (q.1.data ++ '>' :: q.2.data) :: ps.map fun r =>
          r.1.data ++ '>' :: r.2.data := by
      rw [chSplit_sep_cons, step2]
    have step4 := chSplit_append_no_sep '<' o0 _ h0 _ _ step3
    simp only [List.map_cons, List.flatten_cons, List.cons_append, List.append_assoc]
      at step4 ⊢
    simpa using step4

theorem samtGo_no_close (orig : List Char) :
    ∀ (rest : List Char) (opening : Nat) (acc : List Char), '>' ∉ rest →
      samtGo orig opening acc rest = ("", ⟨orig⟩)
  | [], _, _, _ => rfl
  | c :: cs, opening, acc, h => by
    have hc : c ≠ '>' := fun e => h (e ▸ List.mem_cons_self c cs)
    have htail : '>' ∉ cs := fun hm => h (List.mem_cons_of_mem c hm)
    by_cases hlt : c = '<'
    · simp only [samtGo, if_pos hlt]
      exact samtGo_no_close orig cs (opening + 1) (c :: acc) htail
    · simp only [samtGo, if_neg hlt, if_neg hc]
      exact samtGo_no_close orig cs opening (c :: acc) htail

theorem samtGo_wellformed (orig o : List Char) :
    ∀ (t acc : List Char), '<' ∉ t → '>' ∉ t →
      samtGo orig 0 acc (t ++ '>' :: o) = (⟨acc.reverse ++ t⟩, ⟨o⟩)
  | [], acc, _, _ => by simp [samtGo]
  | c :: t, acc, h1, h2 => by
    have hc1 : c ≠ '<' := fun e => h1 (e ▸ List.mem_cons_self c t)
    have hc2 : c ≠ '>' := fun e => h2 (e ▸ List.mem_cons_self c t)
    have ih := samtGo_wellformed orig o t (c :: acc)
      (fun hm => h1 (List.mem_cons_of_mem c hm))
      (fun hm => h2 (List.mem_cons_of_mem c hm))
    simp only [List.cons_append, samtGo, if_neg hc1, if_neg hc2]
    show samtGo orig 0 (c :: acc) (t ++ '>' :: o) = (⟨acc.reverse ++ c :: t⟩, ⟨o⟩)
    rw [ih]
    simp

theorem samt_wellformed (t o : List Char) (h1 : '<' ∉ t) (h2 : '>' ∉ t) :
    splitAtMatchingTag ⟨t ++ '>' :: o⟩ = (⟨t⟩, ⟨o⟩) := by
  have h := samtGo_wellformed (t ++ '>' :: o) o t [] h1 h2
  simpa [splitAtMatchingTag] using h

/-- The central tag-shielding property: on well-formed tagged text, the
decorated function reproduces every tag region verbatim and applies the
wrapped transformation exactly to the outside-tag segments. -/
theorem shieldTags_decomposition (func : String → String) (o0 : String)
    (pieces : List (String × String))
    (h0 : '<' ∉ o0.data)
    (hp : ∀ q ∈ pieces, '<' ∉ (q.1 : String).data ∧ '>' ∉ q.1.data ∧ '<' ∉ q.2.data) :
    shieldTags func (assemble o0 pieces) =
      func o0 ++ String.join (pieces.map fun q => "<" ++ q.1 ++ ">" ++ func q.2) := by
  have hdata : (assemble o0 pieces).data =
      o0.data ++ (pieces.map fun q => '<' :: (q.1.data ++ '>' :: q.2.data)).flatten := by
    simp only [assemble, String.data_append, join_data, List.map_map]
    congr 1
    congr 1
    apply List.map_congr_left
    intro q _
    simp [String.data_append]
  unfold shieldTags
  rw [hdata, chSplit_assemble pieces o0.data h0 hp]
  simp only [List.map_cons, List.map_map]
  rw [show (String.mk o0.data) = o0 from rfl]
  congr 1
  congr 1
  apply List.map_congr_left
  intro q hq
  obtain ⟨hq1, hq2, _⟩ := hp q hq
  simp only [Function.comp]
  rw [samt_wellformed q.1.data q.2.data hq1 hq2]

/-! ## Claim theorems: text enhancement -/

/-- C6 counterexample: URL linkification rewrites characters that lie inside
an already-open tag.  On `<a href="http://example.com/ab">y</a>` — whose only
outside-tag text is `y` — `clickableUrls` rewrites the URL inside the
anchor's attribute region, so the output differs from the input, refuting
`neither transformation rewrites characters lying inside an already-open
tag`. -/
theorem c6_enhancement_cex :
    clickableUrls "<a href=\"http://example.com/ab\">y</a>" =
      "<a href=\"<a href=\"http://example.com/ab\">http://example.com/ab</a>\">y</a>" ∧
    ("<a href=\"<a href=\"http://example.com/ab\">http://example.com/ab</a>\">y</a>"
      : String) ≠ "<a href=\"http://example.com/ab\">y</a>" := by decide

/-- C6 (corrected): only mention highlighting is tag-shielded — `applyColors`
reproduces every tag region of well-formed tagged text verbatim and applies
the colourizing body only to outside-tag segments; URL linkification runs
unshielded over the whole text (see the counterexample).  The spec's example
nevertheless holds: enhancing `see <a href="http://x">http://x</a> alice`
leaves the URL inside the anchor unchanged (it is too short for the
pattern's `{2,}` quantifier) and highlights `alice` outside the tag. -/
theorem c6_enhancement_amended (nicks : List (String × String)) (o0 : String)
    (pieces : List (String × String))
    (h0 : '<' ∉ o0.data)
    (hp : ∀ q ∈ pieces, '<' ∉ (q.1 : String).data ∧ '>' ∉ q.1.data ∧ '<' ∉ q.2.data) :
    applyColors nicks (assemble o0 pieces) =
      applyColorsCore nicks o0 ++
        String.join (pieces.map fun q => "<" ++ q.1 ++ ">" ++ applyColorsCore nicks q.2) ∧
    enhanceMessageLine "see <a href=\"http://x\">http://x</a> alice" [("alice", "blue")] =
      "see <a href=\"http://x\">http://x</a> <span class=\"color-blue\">alice</span>" :=
  ⟨shieldTags_decomposition (applyColorsCore nicks) o0 pieces h0 hp, by decide⟩

/-- Witness for C6 (amended) at a concrete tagged text with a nick outside
the tag. -/
theorem c6_enhancement_amended_witness :
    applyColors [("alice", "blue")] (assemble "a " [("i", " alice")]) =
      applyColorsCore [("alice", "blue")] "a " ++
        String.join ([("i", " alice")].map fun q =>
          "<" ++ q.1 ++ ">" ++ applyColorsCore [("alice", "blue")] q.2) ∧
    enhanceMessageLine "see <a href=\"http://x\">http://x</a> alice" [("alice", "blue")] =
      "see <a href=\"http://x\">http://x</a> <span class=\"color-blue\">alice</span>" :=
  c6_enhancement_amended [("alice", "blue")] "a " [("i", " alice")]
    (by decide) (by decide)

/-- C7 (code bug): mention highlighting deletes the character immediately
following each highlighted name.  `applyColors.lastStop` is set to
`match.end() + 1`, so on `"hi alice bye"` with known author `alice` the
space after `alice` is dropped: the code produces
`hi <span ...>alice</span>bye`, not the claimed character-preserving
`hi <span ...>alice</span> bye`. -/
theorem c7_mention_highlight_bug :
    applyColors [("alice", "blue")] "hi alice bye" =
      "hi <span class=\"color-blue\">alice</span>bye" ∧
    applyColors [("alice", "blue")] "hi alice bye" ≠
      "hi <span class=\"color-blue\">alice</span> bye" := by decide

/-- C8 counterexample: `shieldTags` with the identity transformation is not
the identity — on `a<b`, whose `<` has no matching close, a `>` is inserted
and the output is `a<>b`. -/
theorem c8_shield_identity_cex :
    shieldTags (fun s => s) "a<b" = "a<>b" ∧ ("a<>b" : String) ≠ "a<b" := by decide

/-- C8 (corrected): the tag-shielding wrapper applied with the identity is
the identity on every well-formed tagged text (each `<` matched by a `>`);
when an opened tag has no matching close, the remainder after the `<` is
still passed to the transformation as outside-tag text — no characters of
the input are dropped — but a `>` that was not in the input is inserted at
the unmatched opening. -/
theorem c8_shield_identity_amended :
    (∀ (o0 : String) (pieces : List (String × String)),
      '<' ∉ o0.data →
      (∀ q ∈ pieces, '<' ∉ (q.1 : String).data ∧ '>' ∉ q.1.data ∧ '<' ∉ q.2.data) →
      shieldTags (fun s => s) (assemble o0 pieces) = assemble o0 pieces) ∧
    (∀ pre post : String, '<' ∉ pre.data → '<' ∉ post.data → '>' ∉ post.data →
      shieldTags (fun s => s) (pre ++ "<" ++ post) = pre ++ "<>" ++ post) := by
  constructor
  · intro o0 pieces h0 hp
    exact shieldTags_decomposition (fun s => s) o0 pieces h0 hp
  · intro pre post hpre hpost1 hpost2
    have hdata : ((pre ++ "<" ++ post) : String).data = pre.data ++ '<' :: post.data := by
      simp [String.data_append]
    have h2 : chSplit '<' ('<' :: post.data) = [] :: [post.data] := by
      rw [chSplit_sep_cons, chSplit_no_sep '<' post.data hpost1]
    have hsplit := chSplit_append_no_sep '<' pre.data ('<' :: post.data) hpre
      [] [post.data] h2
    have hsamt : splitAtMatchingTag ⟨post.data⟩ = ("", ⟨post.data⟩) := by
      have h3 := samtGo_no_close post.data post.data 0 [] hpost2
      simpa [splitAtMatchingTag] using h3
    unfold shieldTags
    rw [hdata, hsplit]
    simp only [List.append_nil, List.map_cons, List.map_nil]
    rw [hsamt]
    apply strExt
    simp [String.data_append, join_data]

/-- Witness for C8 (amended) at `a<b>c` (well-formed, reproduced verbatim)
and at `x<y` (unmatched opening: remainder kept, `>` inserted). -/
theorem c8_shield_identity_amended_witness :
    shieldTags (fun s => s) (assemble "a" [("b", "c")]) = assemble "a" [("b", "c")] ∧
    shieldTags (fun s => s) ("x" ++ "<" ++ "y") = "x" ++ "<>" ++ "y" :=
  ⟨c8_shield_identity_amended.1 "a" [("b", "c")] (by decide) (by decide),
   c8_shield_identity_amended.2 "x" "y" (by decide) (by decide) (by decide)⟩

/-! ## Lemmas about `escape` and the renderer -/

theorem join_cons (a : String) (l : List String) :
    String.join (a :: l) = a ++ String.join l :=
  strExt (by simp [join_data, String.data_append])

theorem escChar_ne_nil (c : Char) : escChar c ≠ [] := by
  unfold escChar
  split_ifs <;> simp

theorem escChar_head_eq (c1 c2 : Char) (r1 r2 : List Char)
    (h : escChar c1 ++ r1 = escChar c2 ++ r2) : c1 = c2 := by
  unfold escChar at h
  split_ifs at h <;> simp_all
  all_goals exact absurd h.1.symm ‹¬c2 = '&'›

theorem escList_inj : ∀ l1 l2 : List Char, escList l1 = escList l2 → l1 = l2
  | [], [], _ => rfl
  | [], c :: t, h => by
    exfalso
    have h2 : escChar c ++ escList t = [] := h.symm
    exact escChar_ne_nil c (List.append_eq_nil.1 h2).1
  | c :: t, [], h => by
    exfalso
    have h2 : escChar c ++ escList t = [] := h
    exact escChar_ne_nil c (List.append_eq_nil.1 h2).1
  | c1 :: t1, c2 :: t2, h => by
    have h2 : escChar c1 ++ escList t1 = escChar c2 ++ escList t2 := h
    have hc := escChar_head_eq c1 c2 _ _ h2
    subst hc
    have h3 := List.append_cancel_left h2
    rw [escList_inj t1 t2 h3]

theorem escape_inj {p q : String} (h : escape p = escape q) : p = q := by
  have hd : escList p.data = escList q.data := congrArg String.data h
  exact strExt (escList_inj _ _ hd)

theorem escape_mem_sentinels (p : String) :
    escape p ∈ nonhumanSentinels ↔ p ∈ nonhumanRaw := by
  unfold nonhumanSentinels
  constructor
  · intro h
    rw [List.mem_map] at h
    obtain ⟨r, hr, he⟩ := h
    rwa [← escape_inj he]
  · intro h
    exact List.mem_map_of_mem escape h

theorem str_append_eq_empty (a b : String) : a ++ b = "" ↔ a = "" ∧ b = "" := by
  constructor
  · intro h
    have hd : a.data ++ b.data = [] := by
      have := congrArg String.data h
      rwa [String.data_append] at this
    obtain ⟨ha, hb⟩ := List.append_eq_nil.1 hd
    exact ⟨strExt ha, strExt hb⟩
  · rintro ⟨rfl, rfl⟩
    rfl

theorem formatRow_ne_empty (ext : String → String) (nicks : List (String × String))
    (t p l lp : String) : formatRow ext nicks t p l lp ≠ "" := by
  intro h
  have hd := congrArg (fun s => s.data.length) h
  simp only [formatRow, String.data_append, List.length_append, List.length_cons,
    List.length_nil] at hd
  omega

theorem rowOf_ne_empty (ext : String → String) (nicks : List (String × String))
    (l : LogLine) (lastP : String) : rowOf ext nicks l lastP ≠ "" :=
  formatRow_ne_empty ext nicks _ _ _ _

/-- Bridge between the stateful render loop and the history-indexed
`specChunks` formulation: the loop's `formatted ≠ ""` test coincides with
`a previous line exists`, its `prevDate` with the previous line's date
(the epoch for the first line), and its `lastPrefix` with the previous
line's prefix. -/
theorem strH1 (x r j f : String) :
    "" ++ "" ++ x ++ r ++ (j ++ f) = "" ++ ("" ++ x ++ r ++ j ++ f) := by
  apply strExt
  simp [String.data_append]

theorem strH2 (r j f : String) :
    "" ++ r ++ (j ++ f) = "" ++ ("" ++ r ++ j ++ f) := by
  apply strExt
  simp [String.data_append]

theorem strH3 (fm c x r j f : String) :
    fm ++ c ++ x ++ r ++ (j ++ f) = fm ++ (c ++ x ++ r ++ j ++ f) := by
  apply strExt
  simp [String.data_append]

theorem strH4 (fm r j f : String) :
    fm ++ r ++ (j ++ f) = fm ++ ("" ++ r ++ j ++ f) := by
  apply strExt
  simp [String.data_append]

theorem renderLoop_eq_chunks (ext : String → String) (nicks : List (String × String))
    (ls : List LogLine) :
    ∀ (prev : Option LogLine) (formatted : String) (prevTs : Nat) (lastP : String),
      (formatted = "" ↔ prev = none) →
      prevTs = (match prev with | none => 0 | some p => p.timestamp) →
      lastP = (match prev with | none => "" | some p => p.pfx) →
      renderLoop ext nicks formatted prevTs lastP ls =
        formatted ++ (String.join (specChunks ext nicks prev ls) ++ "    </table>\n") := by
  induction ls with
  | nil =>
    intro prev formatted prevTs lastP _ _ _
    simp only [renderLoop, specChunks, String.join, List.foldl_nil]
    rw [String.empty_append]
  | cons l ls ih =>
    intro prev formatted prevTs lastP hpf hts hlp
    cases prev with
    | none =>
      have hf : formatted = "" := hpf.2 rfl
      subst hf
      have hts0 : prevTs = 0 := hts
      have hlp0 : lastP = "" := hlp
      subst hts0
      subst hlp0
      have hrow := rowOf_ne_empty ext nicks l ""
      have hne : ∀ f2 : String,
          (f2 ++ rowOf ext nicks l "" = "" ↔ (some l : Option LogLine) = none) := by
        intro f2
        rw [str_append_eq_empty]
        simp [hrow]
      simp only [renderLoop]
      rw [ih (some l) _ l.timestamp l.pfx (hne _) rfl rfl]
      simp only [specChunks, Option.isSome_none, join_cons]
      by_cases hd : dateOf l.timestamp ≠ dateOf 0
      · rw [if_pos hd, if_pos hd]
        rw [if_neg (by norm_num : ¬(("" : String) ≠ ""))]
        rw [if_neg (by norm_num : ¬(false = true))]
        exact strH1 (dayHeading l) (rowOf ext nicks l "")
          (String.join (specChunks ext nicks (some l) ls)) "    </table>\n"
      · rw [if_neg hd, if_neg hd]
        exact strH2 (rowOf ext nicks l "")
          (String.join (specChunks ext nicks (some l) ls)) "    </table>\n"
    | some p =>
      have hf : formatted ≠ "" := fun hc => by
        have h2 := hpf.1 hc
        simp at h2
      have hts0 : prevTs = p.timestamp := hts
      have hlp0 : lastP = p.pfx := hlp
      subst hts0
      subst hlp0
      have hrow := rowOf_ne_empty ext nicks l p.pfx
      have hne : ∀ f2 : String,
          (f2 ++ rowOf ext nicks l p.pfx = "" ↔ (some l : Option LogLine) = none) := by
        intro f2
        rw [str_append_eq_empty]
        simp [hrow]
      simp only [renderLoop]
      rw [ih (some l) _ l.timestamp l.pfx (hne _) rfl rfl]
      simp only [specChunks, Option.isSome_some, join_cons]
      by_cases hd : dateOf l.timestamp ≠ dateOf p.timestamp
      · rw [if_pos hd, if_pos hd, if_pos hf]
        rw [if_pos trivial]
        exact strH3 formatted "</table>\n" (dayHeading l) (rowOf ext nicks l p.pfx)
          (String.join (specChunks ext nicks (some l) ls)) "    </table>\n"
      · rw [if_neg hd, if_neg hd]
        exact strH4 formatted (rowOf ext nicks l p.pfx)
          (String.join (specChunks ext nicks (some l) ls)) "    </table>\n"

/-! ## Claim theorems: the renderer -/

set_option maxRecDepth 4096 in
/-- C9 (confirmed): a rendered row shows the continuation marker in place of
the author name exactly when the line's raw prefix equals the previous
line's raw prefix and is not a non-human sentinel.  `formatRow` receives
escaped prefixes, and escaping is injective, so the escaped-level test of
`isLineContinuation` coincides with the raw-level condition; concretely, two
consecutive `alice` lines render the second author cell as `↳`, and a
repeated `--` sentinel prefix never collapses. -/
theorem c9_continuation_collapse :
    (∀ p lastP : String,
      isLineContinuation (escape p) (escape lastP) = true ↔
        (p = lastP ∧ p ∉ nonhumanRaw)) ∧
    renderHtmlBody (fun _ => "gray") [("alice", "blue")]
        [⟨100, "alice", "hi"⟩, ⟨200, "alice", "yo"⟩] =
      "    <tr><td>00:01:40</td><td class=\"color-gray\">" ++
        "<span class=\"nc-prefix-none\"></span>alice</td><td>hi</td></tr>\n" ++
        "    <tr><td>00:03:20</td><td class=\"color-gray\">" ++
        "<span class=\"nc-prefix-none\"></span>↳</td><td>yo</td></tr>\n" ++
        "    </table>\n" ∧
    renderHtmlBody (fun _ => "gray") [("alice", "blue")]
        [⟨100, "--", "j"⟩, ⟨200, "--", "k"⟩] =
      "    <tr class=\"non-human\"><td>00:01:40</td><td class=\"color-default\">" ++
        "<span class=\"nc-prefix-none\"></span>--</td><td>j</td></tr>\n" ++
        "    <tr class=\"non-human\"><td>00:03:20</td><td class=\"color-default\">" ++
        "<span class=\"nc-prefix-none\"></span>--</td><td>k</td></tr>\n" ++
        "    </table>\n" := by
  refine ⟨?_, by decide, by decide⟩
  intro p lastP
  unfold isLineContinuation
  constructor
  · intro h
    by_cases hc : escape p ∉ nonhumanSentinels ∧ escape p = escape lastP
    · exact ⟨escape_inj hc.2, fun hm => hc.1 ((escape_mem_sentinels p).2 hm)⟩
    · rw [if_neg hc] at h
      exact absurd h (by simp)
  · rintro ⟨h1, h2⟩
    rw [if_pos ⟨fun hm => h2 ((escape_mem_sentinels p).1 hm), by rw [h1]⟩]

/-- C10 counterexample: the very first line of a slice dated 1970-01-01
(timestamp 0) opens no day section at all — the loop's previous-date tracker
is initialised to the epoch, so no date change is detected and the rendered
body contains no heading, refuting `unconditionally for the very first
line`. -/
theorem c10_first_line_epoch_cex :
    pyContains (renderHtmlBody (fun _ => "gray") [("alice", "blue")]
      [⟨0, "a", "x"⟩]) "<h3>" = false := by decide

/-- C10 (corrected): the rendered body equals the history-indexed
`specChunks` decomposition: for each line, a day section (heading with the
ISO date, then a table) is opened exactly when the line's calendar date
differs from the tracked previous date; the tracker starts at the Unix
epoch date rather than a first-line sentinel, so the very first line opens
a section iff its date differs from 1970-01-01; the previous day's table is
closed first exactly when a previous line exists and the date changed. -/
theorem c10_day_sections (ext : String → String) (nicks : List (String × String))
    (lines : List LogLine) :
    renderHtmlBody ext nicks lines =
      String.join (specChunks ext nicks none lines) ++ "    </table>\n" := by
  have h := renderLoop_eq_chunks ext nicks lines none "" 0 "" (by simp) rfl rfl
  unfold renderHtmlBody
  rw [h, String.empty_append]

end Logexport
